import Mathlib

/-!
Verification of the codebase-indexing pipeline (discovery, chunking, embedding,
storage, filtered retrieval) against its natural-language specification.

The development is a shallow embedding of the Python sources:
  * `src/types.py`            — the `Chunk` / `Range` data model,
  * `src/parser.py`           — `CodeParser.chunk_code` and its extension maps,
  * `src/indexing.py`         — `CodebaseIndex.store` / `retrieve` / `clear`,
  * `src/github_service.py`   — the pattern checks inside `GitHubService.list_files`.

Python strings are modelled as Lean `String`s (or `List Char` where character-level
reasoning is needed); machine integers are `Nat`/`Int`; code that can raise returns
`Except`.  External collaborators (the tree-sitter/llama-index splitter, the
embedding provider, the LanceDB vector search) are passed in as function
parameters, mirroring how the Python classes receive them, and the LanceDB search
itself is modelled by its documented contract: rows matching the filter, ordered
by decreasing similarity to the query vector, truncated to the limit.
-/

/-! ## Data model (`src/types.py`) -/

/-- A position inside a file, mirroring the `{'line': …, 'character': …}` dicts
used for `Range.start` / `Range.end` in `types.py`.  Lines are `Int` because the
code computes `chunk_end - 1`, which can be `-1`. -/
structure Pos where
  line : Int
  character : Int
deriving DecidableEq, Repr, Inhabited

/-- `types.Range`: a start and end position. -/
structure MRange where
  start : Pos
  «end» : Pos
deriving DecidableEq, Repr, Inhabited

/-- `types.Chunk`: a fragment of a file.  `range = none` mirrors Python's
`range=None` default, and `repo`/`branch` default to the empty string. -/
structure Chunk where
  filepath : String
  content : String
  range : Option MRange := none
  repo : String := ""
  branch : String := ""
deriving DecidableEq, Repr, Inhabited

/-! ## String helpers shared by the modules

Python string operations used by the sources, re-implemented structurally over
`List Char` so that every definition evaluates inside the kernel. -/

/-- Helper for `splitlines`: walks the characters, cutting at `'\n'`;
`acc` holds the (reversed) characters of the current line. -/
def splitlinesAux : List Char → List Char → List String
  | [], acc => if acc.isEmpty then [] else [⟨acc.reverse⟩]
  | c :: cs, acc =>
    if c = '\n' then (⟨acc.reverse⟩ : String) :: splitlinesAux cs []
    else splitlinesAux cs (c :: acc)

/-- Python `str.splitlines()`, restricted to `'\n'` terminators (the sources never
produce the exotic terminators Python also splits on): `"" ↦ []`,
`"a\nb" ↦ ["a","b"]`, a trailing newline adds no empty line. -/
def splitlines (s : String) : List String :=
  splitlinesAux s.toList []

/-- The characters of the last `/`-separated component of a path (the `name`
of `pathlib.Path`); `acc` holds the (reversed) current component. -/
def afterLastSlash : List Char → List Char → List Char
  | [], acc => acc.reverse
  | c :: cs, acc => if c = '/' then afterLastSlash cs [] else afterLastSlash cs (c :: acc)

/-- Index of the last `'.'` in a character list (`str.rfind('.')`), if any. -/
def rfindDotAux : List Char → Nat → Option Nat → Option Nat
  | [], _, best => best
  | c :: cs, i, best => rfindDotAux cs (i + 1) (if c = '.' then some i else best)

/-- `pathlib.Path(filepath).suffix`: the extension of the final path component.
CPython returns `name[i:]` for the last dot index `i` when `0 < i < len(name)-1`,
and `""` otherwise (no dot, hidden files like `.bashrc`, trailing dot). -/
def pathSuffix (filepath : String) : String :=
  let name := afterLastSlash filepath.toList []
  match rfindDotAux name 0 none with
  | none => ""
  | some i => if 0 < i ∧ i < name.length - 1 then (⟨name.drop i⟩ : String) else ""

/-- Python `str.lower()` (ASCII case folding, which is all the sources need:
they lower-case file extensions). -/
def lowerStr (s : String) : String :=
  ⟨s.toList.map Char.toLower⟩

/-- Association-list lookup mirroring Python `dict.get` on the literal string
dicts of the sources. -/
def lookupStr (key : String) : List (String × String) → Option String
  | [] => none
  | (k, v) :: rest => if key = k then some v else lookupStr key rest

namespace parser

/-! ## `src/parser.py` — `CodeParser` -/

/-- `CodeParser.llama_lang_map`: extensions that have a llama-index splitter
language configured (parser.py lines 52-69). -/
def llama_lang_map : List (String × String) :=
  [(".ts", "typescript"), (".tsx", "typescript"), (".js", "javascript"),
   (".jsx", "javascript"), (".py", "python"), (".rb", "ruby"), (".rs", "rust"),
   (".go", "go"), (".java", "java"), (".cs", "csharp"), (".cpp", "cpp"),
   (".hpp", "cpp"), (".c", "c"), (".h", "c"), (".php", "php"), (".swift", "swift")]

/-- `CodeParser.get_llama_language_for_file`: look the lowered extension up in
`llama_lang_map` (parser.py lines 109-112). -/
def get_llama_language_for_file (filepath : String) : Option String :=
  lookupStr (lowerStr (pathSuffix filepath)) llama_lang_map

/-- The loop of `CodeParser.chunk_code` (parser.py lines 182-206): walk the raw
text pieces, assigning each a line range.  `linesLen` is `len(lines)` for the
whole file and `current_line` the running start line.  Note Python's
`max(1, len(chunk_lines) - 15)` on `int` equals `Nat`'s `max 1 (n - 15)` with
truncated subtraction, since both give `1` whenever `n ≤ 16`. -/
def chunkLoop (filepath : String) (linesLen : Nat) : Nat → List String → List Chunk
  | _, [] => []
  | current_line, text_chunk :: rest =>
    let chunk_lines := (splitlines text_chunk).length
    let chunk_start := current_line
    let chunk_end := min (chunk_start + chunk_lines) linesLen
    { filepath := filepath, content := text_chunk,
      range := some { start := { line := (chunk_start : Int), character := 0 },
                      «end» := { line := (chunk_end : Int) - 1, character := 0 } } }
      :: chunkLoop filepath linesLen (chunk_start + max 1 (chunk_lines - 15)) rest

/-- `CodeParser.chunk_code` (parser.py lines 159-211).  The external llama-index
`CodeSplitter` is passed as `split_text : language → content → Except error pieces`;
`Except.error` models the splitter (or its construction) raising, which the
Python `try`/`except` turns into the whole-file fallback.  An empty piece list
also falls back to the single whole-file chunk (`if not text_chunks`). -/
def chunk_code (split_text : String → String → Except String (List String))
    (filepath content : String) : List Chunk :=
  match get_llama_language_for_file filepath with
  | none => [{ filepath := filepath, content := content }]
  | some lang =>
    match split_text lang content with
    | .error _ => [{ filepath := filepath, content := content }]
    | .ok text_chunks =>
      if text_chunks.isEmpty then [{ filepath := filepath, content := content }]
      else chunkLoop filepath (splitlines content).length 0 text_chunks

/-- The start-line recurrence of the specification: the first piece starts at the
current line, and each following piece starts `max 1 (count - 15)` lines later
(`counts` are the line counts of the pieces, 15 the configured overlap). -/
def startLines : List Nat → Nat → List Nat
  | [], _ => []
  | c :: rest, cur => cur :: startLines rest (cur + max 1 (c - 15))

end parser

namespace indexing

/-! ## `src/indexing.py` — `CodebaseIndex` -/

/-- `CodebaseIndex.get_language` (indexing.py lines 79-102): derive a language
tag from the lowered file extension, `"unknown"` if unmapped. -/
def get_language (filepath : String) : String :=
  (lookupStr (lowerStr (pathSuffix filepath))
    [(".ts", "typescript"), (".tsx", "typescript"), (".js", "javascript"),
     (".jsx", "javascript"), (".py", "python"), (".rb", "ruby"), (".rs", "rust"),
     (".go", "go"), (".java", "java"), (".cs", "c_sharp"), (".cpp", "cpp"),
     (".c", "c"), (".php", "php"), (".el", "elisp"), (".ex", "elixir"),
     (".elm", "elm"), (".ml", "ocaml"), (".ql", "ql"), (".swift", "swift")]).getD "unknown"

/-- A persisted row of the `chunks` table (the dict built in
`CodebaseIndex.store`, indexing.py lines 145-155).  Embeddings are modelled as
integer vectors: their numeric type plays no role in the claims. -/
structure Row where
  id : String
  content : String
  embedding : List Int
  filepath : String
  start_line : Int
  end_line : Int
  language : String
  repo : String
  branch : String
deriving DecidableEq, Repr, Inhabited

/-- The similarity-index structure attached to the table: none yet / the
graph-based HNSW index built for small row sets (`table.create_index` with just
a metric, indexing.py lines 185-188) / the partitioned-quantized IVF_PQ index
(`num_partitions`, `num_sub_vectors`, `num_bits`, lines 191-197). -/
inductive IndexKind where
  | noIndex : IndexKind
  | hnsw : IndexKind
  | ivfPq (num_partitions num_sub_vectors num_bits : Nat) : IndexKind
deriving DecidableEq, Repr, Inhabited

/-- The LanceDB table: its rows plus whichever similarity index was last built. -/
structure Table where
  rows : List Row
  index : IndexKind
deriving DecidableEq, Repr, Inhabited

/-- The database state: `none` models "the table does not exist" (`get_table`
creates an empty one on demand; `clear` drops it). -/
structure DBState where
  table : Option Table
deriving DecidableEq, Repr, Inhabited

/-- Build one persisted row from a chunk and its embedding (indexing.py lines
140-156): line numbers default to 0 when the chunk has no range, the id is
`"{filepath}:{start_line}"`. -/
def rowOfChunk (chunk : Chunk) (embedding : List Int) : Row :=
  let start_line : Int := match chunk.range with | some r => r.start.line | none => 0
  let end_line : Int := match chunk.range with | some r => r.«end».line | none => 0
  { id := chunk.filepath ++ ":" ++ toString start_line,
    filepath := chunk.filepath,
    content := chunk.content,
    embedding := embedding,
    start_line := start_line,
    end_line := end_line,
    language := get_language chunk.filepath,
    repo := chunk.repo,
    branch := chunk.branch }

/-- Slice a chunk list into batches of 100 (`chunks[i:i+100]` for
`i in range(0, len(chunks), 100)`, indexing.py lines 118-130).  The fuel is the
list length, which always suffices: each step consumes at least one element. -/
def toBatchesAux : Nat → List Chunk → List (List Chunk)
  | _, [] => []
  | 0, l => [l]
  | fuel + 1, l => l.take 100 :: toBatchesAux fuel (l.drop 100)

/-- The batches submitted by one `store` call: slices of 100 chunks. -/
def toBatches (l : List Chunk) : List (List Chunk) :=
  toBatchesAux l.length l

/-- One iteration of the batch loop (indexing.py lines 135-162): call the
embedding provider on the batch's contents and zip the returned vectors back
onto the batch (Python `zip` stops at the shorter sequence); a raising provider
(`Except.error`) yields no rows and the `"Error processing batch"` log line. -/
def processBatch (embed : List String → Except String (List (List Int)))
    (batch : List Chunk) : List Row × List String :=
  match embed (batch.map (·.content)) with
  | .ok embeddings => ((batch.zip embeddings).map fun p => rowOfChunk p.1 p.2, [])
  | .error e => ([], ["Error processing batch: " ++ e])

/-- The whole batch loop of `store`: all rows accumulated across batches
(`all_rows`) together with the error log lines written along the way. -/
def build_rows (embed : List String → Except String (List (List Int)))
    (chunks : List Chunk) : List Row × List String :=
  (toBatches chunks).foldl
    (fun acc b =>
      let r := processBatch embed b
      (acc.1 ++ r.1, acc.2 ++ r.2))
    ([], [])

/-- The index-structure policy of `store` (indexing.py lines 183-197): HNSW below
256 rows, otherwise IVF_PQ with `min(rows // 20, 256)` partitions, 96 sub-vectors
and 8 bits.  `n` is `len(all_rows)`, the number of rows this call appends. -/
def index_decision (n : Nat) : IndexKind :=
  if n < 256 then .hnsw else .ivfPq (min (n / 20) 256) 96 8

/-- `CodebaseIndex.store` (indexing.py lines 104-204): early return on an empty
chunk list; otherwise open/create the table, run the batch loop, bulk-append
`all_rows` if any, and (re)build the index per `index_decision`.  Returns the new
state together with the list of arguments passed to the embedding provider (one
entry per batch), so that theorems can speak about which calls were made.
Index creation is modelled as succeeding; in the source a failure merely logs
and leaves the table unindexed (lines 198-200). -/
def store (embed : List String → Except String (List (List Int)))
    (st : DBState) (chunks : List Chunk) : DBState × List (List String) :=
  if chunks.isEmpty then (st, [])
  else
    let t := st.table.getD { rows := [], index := .noIndex }
    let all_rows := (build_rows embed chunks).1
    let calls := (toBatches chunks).map fun b => b.map (·.content)
    if all_rows.isEmpty then ({ table := some t }, calls)
    else
      ({ table := some { rows := t.rows ++ all_rows,
                         index := index_decision all_rows.length } }, calls)

/-- `CodebaseIndex.clear` (indexing.py lines 331-343): drop the table if it
exists; afterwards no table exists, whatever rows it held. -/
def clear (st : DBState) : DBState :=
  match st.table with
  | some _ => { table := none }
  | none => { table := none }

/-- A retrieval tag (`tags: List[Dict[str, str]]`): an optional directory,
branch and repo.  `none` models an absent dict key (`tag.get(…) is None`). -/
structure Tag where
  directory : Option String := none
  branch : Option String := none
  repo : Option String := none
deriving DecidableEq, Repr, Inhabited

/-- Python truthiness of an optional string (`if repo_name:` is false both for
`None` and for `""`). -/
def truthy : Option String → Bool
  | none => false
  | some s => !s.isEmpty

/-- The filter predicates `retrieve` can assemble (indexing.py lines 234-273),
one constructor per SQL fragment: `repo = '…'`, `branch = '…'`,
`filepath LIKE '…%'`, the OR of several directory LIKEs, `language = '…'`. -/
inductive FilterCond where
  | repoEq (r : String)
  | branchEq (b : String)
  | filepathLike (d : String)
  | dirOr (ds : List String)
  | languageEq (l : String)
deriving DecidableEq, Repr

/-- Evaluation of one filter predicate on a row (the semantics LanceDB gives the
SQL fragments: string equality, `LIKE 'd%'` as a starts-with test). -/
def evalCond : FilterCond → Row → Bool
  | .repoEq v, row => row.repo == v
  | .branchEq v, row => row.branch == v
  | .filepathLike d, row => row.filepath.startsWith d
  | .dirOr ds, row => ds.any fun d => row.filepath.startsWith d
  | .languageEq v, row => row.language == v

/-- The filter-building steps of `retrieve` (indexing.py lines 233-273):
repo/branch equality come from the first tag (branch only nested under a truthy
repo); the directory predicate is `filter_directory` if given, else the OR of
the truthy tag directories (backslashes normalised, `""` and `"/"` skipped);
language equality if given. -/
def build_filter_conditions (tags : List Tag) (filter_directory : Option String)
    (language : Option String) : List FilterCond :=
  let repo_name := match tags with | [] => none | t :: _ => t.repo
  let branch_name := match tags with | [] => none | t :: _ => t.branch
  let conds1 : List FilterCond :=
    if truthy repo_name then
      FilterCond.repoEq (repo_name.getD "")
        :: (if truthy branch_name then [FilterCond.branchEq (branch_name.getD "")] else [])
    else []
  let conds2 : List FilterCond :=
    if truthy filter_directory then [FilterCond.filepathLike (filter_directory.getD "")]
    else if !tags.isEmpty then
      let dir_filters := tags.filterMap fun tag =>
        if truthy tag.directory then
          let d := (tag.directory.getD "").replace "\\" "/"
          if !d.isEmpty && d != "/" then some d else none
        else none
      if !dir_filters.isEmpty then [FilterCond.dirOr dir_filters] else []
    else []
  let conds3 : List FilterCond :=
    if truthy language then [FilterCond.languageEq (language.getD "")] else []
  conds1 ++ conds2 ++ conds3

/-- Reconstitute a chunk from a result row (indexing.py lines 300-311): the
range is rebuilt from `start_line`/`end_line` with `character` fixed at 0. -/
def rowToChunk (row : Row) : Chunk :=
  { filepath := row.filepath,
    content := row.content,
    range := some { start := { line := row.start_line, character := 0 },
                    «end» := { line := row.end_line, character := 0 } },
    repo := row.repo,
    branch := row.branch }

/-- Insertion into a list kept sorted by decreasing key. -/
def insertDesc {α : Type} (key : α → Int) (r : α) : List α → List α
  | [] => [r]
  | x :: xs => if key x < key r then r :: x :: xs else x :: insertDesc key r xs

/-- Insertion sort by decreasing key — the ordering contract of the vector
search (most similar first). -/
def sortDesc {α : Type} (key : α → Int) : List α → List α
  | [] => []
  | x :: xs => insertDesc key x (sortDesc key xs)

/-- Model of the LanceDB vector search used by `retrieve` (indexing.py lines
278-285): of the rows satisfying every filter predicate, the `n` with the
highest similarity to the query vector, in decreasing order of similarity.
`sim` abstracts the cosine score of the external engine. -/
def lancedbSearch (sim : List Int → List Int → Int) (query_embedding : List Int)
    (rows : List Row) (conds : List FilterCond) (n : Nat) : List Row :=
  (sortDesc (fun row => sim query_embedding row.embedding)
      (rows.filter fun row => conds.all fun c => evalCond c row)).take n

/-- `CodebaseIndex.retrieve` (indexing.py lines 206-329): embed the query (an
erroring provider propagates; an empty vector list would raise `IndexError` on
`[0]`), build the filter, run the vector search limited to `n`, and convert each
result row to a chunk in order.  An empty result set yields `ok []`. -/
def retrieve (sim : List Int → List Int → Int)
    (embed : List String → Except String (List (List Int)))
    (st : DBState) (query : String) (n : Nat) (tags : List Tag)
    (filter_directory : Option String) (language : Option String) :
    Except String (List Chunk) :=
  match embed [query] with
  | .error e => .error e
  | .ok [] => .error "IndexError: list index out of range"
  | .ok (query_embedding :: _) =>
    let rows := match st.table with | some t => t.rows | none => []
    let conds := build_filter_conditions tags filter_directory language
    let results := lancedbSearch sim query_embedding rows conds n
    .ok (results.map rowToChunk)

end indexing

namespace github

/-! ## `src/github_service.py` — the pattern checks of `GitHubService.list_files`

Paths and patterns are modelled as `List Char` here, because the claim under
scrutiny is about character-level substring containment (Python's `in`). -/

/-- Python `str.startswith` on character lists (also the prefix test used by
`str.replace` while scanning). -/
def isPre : List Char → List Char → Bool
  | [], _ => true
  | _ :: _, [] => false
  | a :: p, b :: l => a == b && isPre p l

/-- Python's substring containment `p in l` on character lists: `p` occurs
contiguously somewhere in `l`. -/
def isSub (p : List Char) : List Char → Bool
  | [] => isPre p []
  | c :: l => isPre p (c :: l) || isSub p l

/-- Python `str.replace(pat, rep)`: scan left to right, replacing each
non-overlapping occurrence of `pat` and continuing after the replacement
(the replacement itself is not re-scanned).  Structured with fuel so the kernel
can evaluate it; `fuel = l.length` always suffices because every step consumes
at least one character of `l`.  (The sources only ever call it with a nonempty
`pat`; the fuel-exhausted arm is unreachable for such calls.) -/
def replaceAllAux (pat rep : List Char) : Nat → List Char → List Char
  | _, [] => []
  | 0, l => l
  | fuel + 1, c :: cs =>
    if pat ≠ [] ∧ isPre pat (c :: cs) = true then
      rep ++ replaceAllAux pat rep fuel ((c :: cs).drop pat.length)
    else c :: replaceAllAux pat rep fuel cs

/-- Python `l.replace(pat, rep)` on character lists. -/
def replaceAll (l pat rep : List Char) : List Char :=
  replaceAllAux pat rep l.length l

/-- `pattern.replace("**/", "").replace("/**", "")` — the core a pattern is
reduced to before the slash-wrapped containment test (github_service.py
line 101). -/
def pattern_core (pattern : List Char) : List Char :=
  replaceAll (replaceAll pattern ['*', '*', '/'] []) ['/', '*', '*'] []

/-- The exclusion test of `GitHubService.list_files` (github_service.py lines
100-103): some pattern's slash-wrapped core occurs in the slash-wrapped path,
`f'/{core}/' in f'/{file_path}/'`. -/
def should_exclude (exclude_patterns : List (List Char)) (file_path : List Char) : Bool :=
  exclude_patterns.any fun pattern =>
    isSub ('/' :: pattern_core pattern ++ ['/']) ('/' :: file_path ++ ['/'])

/-- The `/`-separated segments of a path (what `path.split('/')` returns): the
independent characterisation the amended claim compares the containment test
against. -/
def segments : List Char → List (List Char)
  | [] => [[]]
  | c :: rest =>
    if c = '/' then [] :: segments rest
    else
      match segments rest with
      | [] => [[c]]
      | h :: tl => (c :: h) :: tl

end github

/-! ## Concrete instances used to evaluate the model at specific inputs -/

/-- An embedding provider that returns the vector `[0]` for every input text
(always succeeds, always length-matching). -/
def embedZeros : List String → Except String (List (List Int)) :=
  fun ts => .ok (ts.map fun _ => [0])

/-- A sample persisted row. -/
def rowA : indexing.Row :=
  indexing.rowOfChunk { filepath := "a.py", content := "x" } [0]

/-- A database state whose table already holds 256 rows. -/
def st256 : indexing.DBState :=
  ⟨some { rows := List.replicate 256 rowA, index := .ivfPq 12 96 8 }⟩

/-- Five hundred chunks, the corpus size of the specification's example. -/
def chunks500 : List Chunk :=
  List.replicate 500 { filepath := "a.py", content := "x" }

/-! ## Theorems -/

/-- **C10.**  Calling `store` with an empty chunk list is a complete no-op: it
returns without invoking the embedding provider (no call is recorded), without
opening or creating the table, and leaves all persisted rows and the index
unchanged (the state is returned as-is). -/
theorem store_empty_noop (embed : List String → Except String (List (List Int)))
    (st : indexing.DBState) : indexing.store embed st [] = (st, []) := rfl

/-- **C2** (code bug, evaluated at the failing input).  A batch of two chunks
whose embedding provider returns a single vector: the batch loop stores exactly
one row and writes no log line — `zip` silently drops the second chunk instead
of detecting and logging the length mismatch. -/
theorem embedding_length_mismatch_not_logged :
    ([{ filepath := "a.py", content := "x" }, { filepath := "b.py", content := "y" }] :
        List Chunk).length = 2 ∧
    (indexing.build_rows (fun _ => Except.ok [[7]])
        [{ filepath := "a.py", content := "x" }, { filepath := "b.py", content := "y" }]).1.length = 1 ∧
    (indexing.build_rows (fun _ => Except.ok [[7]])
        [{ filepath := "a.py", content := "x" }, { filepath := "b.py", content := "y" }]).2 = [] := by
  decide

/-- **C5.**  For every file whose language has no configured splitter, and for
every file on which the splitter raises or returns no pieces, `chunk_code`
returns exactly one fragment whose content equals the entire input and whose
range is absent; the file is never dropped. -/
theorem chunk_fallback_single_fragment
    (split_text : String → String → Except String (List String))
    (filepath content : String)
    (h : parser.get_llama_language_for_file filepath = none ∨
         (∃ lang err, parser.get_llama_language_for_file filepath = some lang ∧
            split_text lang content = .error err) ∨
         (∃ lang, parser.get_llama_language_for_file filepath = some lang ∧
            split_text lang content = .ok [])) :
    parser.chunk_code split_text filepath content =
      [{ filepath := filepath, content := content }] := by
  unfold parser.chunk_code
  rcases h with h | ⟨lang, err, h1, h2⟩ | ⟨lang, h1, h2⟩
  · rw [h]
  · rw [h1]
    dsimp only
    rw [h2]
  · rw [h1]
    dsimp only
    rw [h2]
    rfl

/-- Witness for C5 at a concrete input: `.txt` has no configured splitter, so
the whole file comes back as a single rangeless fragment. -/
theorem chunk_fallback_single_fragment_witness :
    parser.get_llama_language_for_file "notes.txt" = none ∧
    parser.chunk_code (fun _ c => Except.ok [c]) "notes.txt" "hello\nworld" =
      [{ filepath := "notes.txt", content := "hello\nworld" }] :=
  ⟨rfl, chunk_fallback_single_fragment (fun _ c => Except.ok [c]) "notes.txt" "hello\nworld"
    (Or.inl rfl)⟩

/-- **C4** (counterexample).  The claim "every fragment with a range satisfies
`start.line ≤ end.line`, for every piece sequence the splitter may return" is
false: on a one-line file with two three-line pieces, the second chunk gets
start line 1 and end line 0. -/
theorem range_order_counterexample :
    ((parser.chunk_code (fun _ _ => Except.ok ["a\nb\nc", "d\ne\nf"]) "a.py" "x").getD 1
        default).range =
      some { start := { line := 1, character := 0 }, «end» := { line := 0, character := 0 } } ∧
    (0 : Int) < 1 := by
  decide

/-- **C7.**  Round-trip: storing any chunks, then clearing, then retrieving with
any query and filters yields zero results — and `clear` drops the whole table
unconditionally, regardless of repo or branch. -/
theorem store_clear_retrieve_empty (sim : List Int → List Int → Int)
    (embed : List String → Except String (List (List Int)))
    (st : indexing.DBState) (chunks : List Chunk) (q : String) (n : Nat)
    (tags : List indexing.Tag) (fd lang : Option String) (res : List Chunk)
    (h : indexing.retrieve sim embed
        (indexing.clear (indexing.store embed st chunks).1) q n tags fd lang =
      Except.ok res) :
    res = [] ∧ (indexing.clear (indexing.store embed st chunks).1).table = none := by
  have hc : indexing.clear (indexing.store embed st chunks).1 = ⟨none⟩ := by
    unfold indexing.clear
    split <;> rfl
  refine ⟨?_, by rw [hc]⟩
  rw [hc] at h
  unfold indexing.retrieve at h
  cases he : embed [q] with
  | error e => rw [he] at h; cases h
  | ok vs =>
    rw [he] at h
    cases vs with
    | nil => cases h
    | cons v rest =>
      simp only [indexing.lancedbSearch, indexing.sortDesc, List.filter_nil,
        List.take_nil, List.map_nil] at h
      exact (Except.ok.injEq _ _).mp h.symm

/-- Witness for C7 at a concrete input: store nothing, clear, retrieve. -/
theorem store_clear_retrieve_empty_witness :
    indexing.retrieve (fun _ _ => 0) embedZeros
        (indexing.clear (indexing.store embedZeros ⟨none⟩ []).1) "q" 5 [] none none =
      Except.ok [] ∧
    (([] : List Chunk) = [] ∧
      (indexing.clear (indexing.store embedZeros ⟨none⟩ []).1).table = none) :=
  ⟨rfl, store_clear_retrieve_empty (fun _ _ => 0) embedZeros ⟨none⟩ [] "q" 5 [] none none [] rfl⟩

/-- **C9.**  The branch equality filter is applied only when the first tag also
supplies a (truthy) repo: when the first tag's repo is absent or empty, neither
a repo nor a branch predicate is added to the filter, whatever its branch says. -/
theorem branch_filter_requires_repo (t : indexing.Tag) (rest : List indexing.Tag)
    (fd lang : Option String) (hrepo : indexing.truthy t.repo = false) :
    (∀ r, indexing.FilterCond.repoEq r ∉ indexing.build_filter_conditions (t :: rest) fd lang) ∧
    (∀ b, indexing.FilterCond.branchEq b ∉ indexing.build_filter_conditions (t :: rest) fd lang) := by
  constructor <;> intro v hv <;>
  · unfold indexing.build_filter_conditions at hv
    simp only [hrepo, if_false, Bool.false_eq_true, List.nil_append] at hv
    rcases List.mem_append.mp hv with hv | hv
    · split at hv
      · simp at hv
      · split at hv
        · split at hv <;> simp at hv
        · simp at hv
    · split at hv <;> simp at hv

/-- Witness for C9 at a concrete input: a first tag with a branch but no repo. -/
theorem branch_filter_requires_repo_witness :
    indexing.truthy (indexing.Tag.mk (some "src/") (some "main") none).repo = false ∧
    ((∀ r, indexing.FilterCond.repoEq r ∉
        indexing.build_filter_conditions [⟨some "src/", some "main", none⟩] none none) ∧
     (∀ b, indexing.FilterCond.branchEq b ∉
        indexing.build_filter_conditions [⟨some "src/", some "main", none⟩] none none)) :=
  ⟨rfl, branch_filter_requires_repo ⟨some "src/", some "main", none⟩ [] none none rfl⟩

set_option maxRecDepth 8192 in
/-- **C1** (counterexample).  The claim keys the index choice on the *total* row
count of the table.  But with 256 rows already present, appending one chunk
(total 257 ≥ 256) still builds the graph-based HNSW index, because the code
looks at `len(all_rows)` — the rows appended by this call — not the table. -/
theorem index_choice_total_count_counterexample :
    ∃ t : indexing.Table,
      ((indexing.store embedZeros st256 [{ filepath := "a.py", content := "x" }]).1).table =
        some t ∧
      t.rows.length = 257 ∧ t.index = indexing.IndexKind.hnsw := by
  refine ⟨_, rfl, ?_, ?_⟩ <;> decide

/-- **C1** (amended).  After `store` appends rows, the index structure is chosen
by the number of rows appended by that call (the successfully embedded ones):
below 256 appended rows the graph-based index is built; at or above, the
partitioned-quantized index with `min (appended / 20) 256` partitions and fixed
sub-vector/bit parameters; 500 appended rows yield 25 partitions. -/
theorem index_choice_by_appended_rows
    (embed : List String → Except String (List (List Int)))
    (st : indexing.DBState) (chunks : List Chunk) (all_rows : List indexing.Row)
    (h1 : chunks ≠ [])
    (h2 : (indexing.build_rows embed chunks).1 = all_rows)
    (h3 : all_rows ≠ []) :
    ∃ t : indexing.Table,
      ((indexing.store embed st chunks).1).table = some t ∧
      t.rows = (st.table.getD { rows := [], index := .noIndex }).rows ++ all_rows ∧
      t.index = (if all_rows.length < 256 then indexing.IndexKind.hnsw
                 else indexing.IndexKind.ivfPq (min (all_rows.length / 20) 256) 96 8) ∧
      (all_rows.length = 500 → t.index = indexing.IndexKind.ivfPq 25 96 8) := by
  have he : chunks.isEmpty = false := by
    cases chunks with
    | nil => exact absurd rfl h1
    | cons c cs => rfl
  have he2 : all_rows.isEmpty = false := by
    cases all_rows with
    | nil => exact absurd rfl h3
    | cons r rs => rfl
  unfold indexing.store
  rw [he]
  simp only [Bool.false_eq_true, if_false, h2, he2]
  refine ⟨_, rfl, rfl, rfl, ?_⟩
  intro h500
  unfold indexing.index_decision
  rw [h500]
  dsimp only
  decide

set_option maxRecDepth 40000 in
/-- Witness for the amended C1 at the specification's own example size: storing
500 chunks into an empty table appends 500 rows and builds the partitioned
index with `500 / 20 = 25` partitions. -/
theorem index_choice_by_appended_rows_witness :
    chunks500 ≠ [] ∧ (indexing.build_rows embedZeros chunks500).1.length = 500 ∧
    (∃ t : indexing.Table,
      ((indexing.store embedZeros ⟨none⟩ chunks500).1).table = some t ∧
      t.rows = ((⟨none⟩ : indexing.DBState).table.getD
          { rows := [], index := .noIndex }).rows ++ (indexing.build_rows embedZeros chunks500).1 ∧
      t.index = (if (indexing.build_rows embedZeros chunks500).1.length < 256 then
                   indexing.IndexKind.hnsw
                 else indexing.IndexKind.ivfPq
                   (min ((indexing.build_rows embedZeros chunks500).1.length / 20) 256) 96 8) ∧
      ((indexing.build_rows embedZeros chunks500).1.length = 500 →
        t.index = indexing.IndexKind.ivfPq 25 96 8)) :=
  ⟨by decide, by decide,
    index_choice_by_appended_rows embedZeros ⟨none⟩ chunks500 _ (by decide) rfl (by decide)⟩

/-- Membership in `insertDesc`: the inserted element or one of the old ones. -/
theorem mem_insertDesc {α : Type} (key : α → Int) (r x : α) (l : List α) :
    x ∈ indexing.insertDesc key r l ↔ x = r ∨ x ∈ l := by
  induction l with
  | nil => simp [indexing.insertDesc]
  | cons a as ih =>
    unfold indexing.insertDesc
    split
    · simp
    · simp only [List.mem_cons, ih]
      tauto

/-- Inserting into a list sorted by decreasing key keeps it sorted. -/
theorem pairwise_insertDesc {α : Type} (key : α → Int) (r : α) (l : List α)
    (h : l.Pairwise fun a b => key b ≤ key a) :
    (indexing.insertDesc key r l).Pairwise fun a b => key b ≤ key a := by
  induction l with
  | nil => simp [indexing.insertDesc]
  | cons a as ih =>
    rcases List.pairwise_cons.mp h with ⟨ha, has⟩
    unfold indexing.insertDesc
    split
    · refine List.pairwise_cons.mpr ⟨?_, h⟩
      intro b hb
      rcases List.mem_cons.mp hb with rfl | hb
      · omega
      · have := ha b hb
        omega
    · refine List.pairwise_cons.mpr ⟨?_, ih has⟩
      intro b hb
      rcases (mem_insertDesc key r b as).mp hb with rfl | hb
      · omega
      · exact ha b hb

/-- `sortDesc` produces a list sorted by decreasing key. -/
theorem pairwise_sortDesc {α : Type} (key : α → Int) (l : List α) :
    (indexing.sortDesc key l).Pairwise fun a b => key b ≤ key a := by
  induction l with
  | nil => simp [indexing.sortDesc]
  | cons a as ih => exact pairwise_insertDesc key a _ ih

/-- **C6.**  For every query, limit `n` and filter set, `retrieve` (when the
query embedding succeeds) returns `ok` — an empty result set is an empty list,
not an error — with at most `n` results, the reconstituted rows ordered by
decreasing similarity of their embeddings to the query embedding. -/
theorem retrieve_contract (sim : List Int → List Int → Int)
    (embed : List String → Except String (List (List Int)))
    (st : indexing.DBState) (q : String) (n : Nat) (tags : List indexing.Tag)
    (fd lang : Option String) (v : List Int) (vs : List (List Int))
    (hq : embed [q] = Except.ok (v :: vs)) :
    ∃ rows_res : List indexing.Row,
      indexing.retrieve sim embed st q n tags fd lang =
        Except.ok (rows_res.map indexing.rowToChunk) ∧
      rows_res.length ≤ n ∧
      rows_res.Pairwise (fun a b => sim v b.embedding ≤ sim v a.embedding) := by
  unfold indexing.retrieve
  rw [hq]
  refine ⟨_, rfl, ?_, ?_⟩
  · simp [indexing.lancedbSearch]
  · exact (pairwise_sortDesc (fun row : indexing.Row => sim v row.embedding) _).sublist
      (List.take_sublist n _)

/-- Witness for C6 at a concrete input: a store with one row, limit 3. -/
theorem retrieve_contract_witness :
    (embedZeros ["q"] = Except.ok ([0] :: [])) ∧
    ∃ rows_res : List indexing.Row,
      indexing.retrieve (fun _ e => e.headD 0) embedZeros ⟨some { rows := [rowA], index := .hnsw }⟩
          "q" 3 [] none none =
        Except.ok (rows_res.map indexing.rowToChunk) ∧
      rows_res.length ≤ 3 ∧
      rows_res.Pairwise (fun a b =>
        (fun _ e => e.headD 0 : List Int → List Int → Int) [0] b.embedding ≤
        (fun _ e => e.headD 0 : List Int → List Int → Int) [0] a.embedding) :=
  ⟨rfl, retrieve_contract (fun _ e => e.headD 0) embedZeros
    ⟨some { rows := [rowA], index := .hnsw }⟩ "q" 3 [] none none [0] [] rfl⟩

/-- `getD` of a mapped list, at an in-bounds index. -/
theorem getD_map_length {α β : Type} (f : α → β) (l : List α) (i : Nat) (d : α) (db : β)
    (h : i < l.length) : (l.map f).getD i db = f (l.getD i d) := by
  induction l generalizing i with
  | nil => simp at h
  | cons a as ih =>
    cases i with
    | zero => rfl
    | succ j => simpa using ih j (by simpa using h)

/-- The chunk loop produces one chunk per raw piece. -/
theorem chunkLoop_length (filepath : String) (L : Nat) (tcs : List String) (cur : Nat) :
    (parser.chunkLoop filepath L cur tcs).length = tcs.length := by
  induction tcs generalizing cur with
  | nil => rfl
  | cons tc rest ih => simp [parser.chunkLoop, ih]

/-- `startLines` produces one start line per piece count. -/
theorem startLines_length (cs : List Nat) (cur : Nat) :
    (parser.startLines cs cur).length = cs.length := by
  induction cs generalizing cur with
  | nil => rfl
  | cons c rest ih => simp [parser.startLines, ih]

/-- The first start line is the current line. -/
theorem startLines_getD_zero (c : Nat) (rest : List Nat) (cur : Nat) :
    (parser.startLines (c :: rest) cur).getD 0 0 = cur := rfl

/-- The start-line recurrence, elementwise. -/
theorem startLines_getD_succ (cs : List Nat) (cur i : Nat) (h : i + 1 < cs.length) :
    (parser.startLines cs cur).getD (i + 1) 0 =
      (parser.startLines cs cur).getD i 0 + max 1 (cs.getD i 0 - 15) := by
  induction cs generalizing cur i with
  | nil => simp at h
  | cons c rest ih =>
    cases i with
    | zero =>
      cases rest with
      | nil => simp at h
      | cons c' rest' => simp [parser.startLines]
    | succ j =>
      have := ih (cur + max 1 (c - 15)) j (by simpa using h)
      simpa [parser.startLines] using this

/-- Each chunk built by the loop carries the range computed from the start-line
walk: start from `startLines`, end `min (start + count) L - 1`. -/
theorem chunkLoop_getD_range (filepath : String) (L : Nat) (tcs : List String) (cur i : Nat)
    (h : i < tcs.length) :
    ((parser.chunkLoop filepath L cur tcs).getD i default).range =
      some { start := { line := ((parser.startLines (tcs.map fun tc => (splitlines tc).length)
                          cur).getD i 0 : Int),
                        character := 0 },
             «end» := { line := ((min ((parser.startLines (tcs.map fun tc => (splitlines tc).length)
                            cur).getD i 0 + (splitlines (tcs.getD i "")).length) L : Nat) : Int) - 1,
                        character := 0 } } := by
  induction tcs generalizing cur i with
  | nil => simp at h
  | cons tc rest ih =>
    cases i with
    | zero => rfl
    | succ j =>
      have := ih (cur + max 1 ((splitlines tc).length - 15)) j (by simpa using h)
      simpa [parser.chunkLoop, parser.startLines] using this

/-- Cast arithmetic: the code's end line `min (s + c) L - 1` (over `Int`, from
`Nat` values) is the claim's `s + c - 1` clamped to the last line `L - 1`. -/
theorem end_line_cast (s c L : Nat) :
    ((min (s + c) L : Nat) : Int) - 1 = min ((s : Int) + (c : Int) - 1) ((L : Int) - 1) := by
  push_cast [Nat.cast_min]
  omega

/-- **C3.**  For every file whose splitter succeeds with at least one piece:
`chunk_code` yields one fragment per piece; the first start line is 0; each next
start line is the previous one plus `max 1 (previous count - 15)` — hence start
lines strictly increase by at least 1 — and each fragment's end line is its
start line plus its line count minus 1, clamped to the file's line count. -/
theorem chunk_line_mapping (split_text : String → String → Except String (List String))
    (filepath content lang : String) (tcs : List String) (counts starts : List Nat) (L : Nat)
    (h1 : parser.get_llama_language_for_file filepath = some lang)
    (h2 : split_text lang content = Except.ok tcs)
    (h3 : tcs ≠ [])
    (hc : counts = tcs.map fun tc => (splitlines tc).length)
    (hL : L = (splitlines content).length)
    (hs : starts = parser.startLines counts 0) :
    (parser.chunk_code split_text filepath content).length = tcs.length ∧
    starts.getD 0 0 = 0 ∧
    (∀ i, i + 1 < tcs.length →
      starts.getD (i + 1) 0 = starts.getD i 0 + max 1 (counts.getD i 0 - 15) ∧
      starts.getD i 0 < starts.getD (i + 1) 0) ∧
    (∀ i, i < tcs.length →
      ((parser.chunk_code split_text filepath content).getD i default).range =
        some { start := { line := (starts.getD i 0 : Int), character := 0 },
               «end» := { line := min ((starts.getD i 0 : Int) + (counts.getD i 0 : Int) - 1)
                            ((L : Int) - 1), character := 0 } }) := by
  have hie : tcs.isEmpty = false := by
    cases tcs with
    | nil => exact absurd rfl h3
    | cons a as => rfl
  have hcc : parser.chunk_code split_text filepath content =
      parser.chunkLoop filepath (splitlines content).length 0 tcs := by
    unfold parser.chunk_code
    rw [h1]
    dsimp only
    rw [h2]
    dsimp only
    rw [hie]
    rfl
  subst hc hL hs
  refine ⟨by rw [hcc, chunkLoop_length], ?_, ?_, ?_⟩
  · cases tcs with
    | nil => exact absurd rfl h3
    | cons tc rest => rfl
  · intro i hi
    have hlen : i + 1 < (tcs.map fun tc => (splitlines tc).length).length := by
      simpa using hi
    constructor
    · exact startLines_getD_succ _ 0 i hlen
    · rw [startLines_getD_succ _ 0 i hlen]
      have : 1 ≤ max 1 ((tcs.map fun tc => (splitlines tc).length).getD i 0 - 15) :=
        le_max_left 1 _
      omega
  · intro i hi
    rw [hcc, chunkLoop_getD_range filepath _ tcs 0 i hi]
    have hcnt : (tcs.map fun tc => (splitlines tc).length).getD i 0 =
        (splitlines (tcs.getD i "")).length :=
      getD_map_length _ tcs i "" 0 hi
    rw [hcnt, end_line_cast]

/-- **C4** (amended).  A fragment produced by `chunk_code` satisfies
`start.line ≤ end.line` whenever its piece has at least one line and its
computed start line lies inside the file; and a fragment reconstituted by
`retrieve` (`rowToChunk`) satisfies it whenever the stored row does.  (Empty
pieces, or pieces whose walk has run past end-of-file, violate it — see the
counterexample.) -/
theorem range_order_amended (split_text : String → String → Except String (List String))
    (filepath content lang : String) (tcs : List String) (counts starts : List Nat) (L : Nat)
    (h1 : parser.get_llama_language_for_file filepath = some lang)
    (h2 : split_text lang content = Except.ok tcs)
    (h3 : tcs ≠ [])
    (hc : counts = tcs.map fun tc => (splitlines tc).length)
    (hL : L = (splitlines content).length)
    (hs : starts = parser.startLines counts 0) :
    (∀ i, i < tcs.length → 1 ≤ counts.getD i 0 → starts.getD i 0 < L →
      ∃ r, ((parser.chunk_code split_text filepath content).getD i default).range = some r ∧
        r.start.line ≤ r.«end».line) ∧
    (∀ row : indexing.Row, row.start_line ≤ row.end_line →
      ∃ r, (indexing.rowToChunk row).range = some r ∧ r.start.line ≤ r.«end».line) := by
  obtain ⟨-, -, -, hrange⟩ :=
    chunk_line_mapping split_text filepath content lang tcs counts starts L
      h1 h2 h3 hc hL hs
  constructor
  · intro i hi hcount hstart
    refine ⟨_, hrange i hi, ?_⟩
    have hle : (starts.getD i 0 : Int) ≤
        min ((starts.getD i 0 : Int) + (counts.getD i 0 : Int) - 1) ((L : Int) - 1) := by
      have h1' : (1 : Int) ≤ (counts.getD i 0 : Int) := by exact_mod_cast hcount
      have h2' : (starts.getD i 0 : Int) + 1 ≤ (L : Int) := by exact_mod_cast hstart
      omega
    exact hle
  · intro row hrow
    exact ⟨_, rfl, hrow⟩

/-- Witness for C3 at a concrete input: two pieces of 2 and 1 lines over a
3-line file. -/
theorem chunk_line_mapping_witness :
    parser.get_llama_language_for_file "a.py" = some "python" ∧
    (["a\nb", "c"] : List String) ≠ [] ∧
    ((parser.chunk_code (fun _ _ => Except.ok ["a\nb", "c"]) "a.py" "a\nb\nc").length =
        (["a\nb", "c"] : List String).length ∧
     ([0, 1] : List Nat).getD 0 0 = 0 ∧
     (∀ i, i + 1 < (["a\nb", "c"] : List String).length →
       ([0, 1] : List Nat).getD (i + 1) 0 =
         ([0, 1] : List Nat).getD i 0 + max 1 (([2, 1] : List Nat).getD i 0 - 15) ∧
       ([0, 1] : List Nat).getD i 0 < ([0, 1] : List Nat).getD (i + 1) 0) ∧
     (∀ i, i < (["a\nb", "c"] : List String).length →
       ((parser.chunk_code (fun _ _ => Except.ok ["a\nb", "c"]) "a.py" "a\nb\nc").getD i
           default).range =
         some { start := { line := (([0, 1] : List Nat).getD i 0 : Int), character := 0 },
                «end» := { line := min ((([0, 1] : List Nat).getD i 0 : Int) +
                               (([2, 1] : List Nat).getD i 0 : Int) - 1)
                             (((3 : Nat) : Int) - 1), character := 0 } })) :=
  ⟨rfl, by decide,
    chunk_line_mapping (fun _ _ => Except.ok ["a\nb", "c"]) "a.py" "a\nb\nc" "python"
      ["a\nb", "c"] [2, 1] [0, 1] 3 rfl rfl (by decide) (by decide) (by decide) (by decide)⟩

/-- Witness for the amended C4 at the same concrete input. -/
theorem range_order_amended_witness :
    parser.get_llama_language_for_file "a.py" = some "python" ∧
    ((∀ i, i < (["a\nb", "c"] : List String).length → 1 ≤ ([2, 1] : List Nat).getD i 0 →
        ([0, 1] : List Nat).getD i 0 < 3 →
      ∃ r, ((parser.chunk_code (fun _ _ => Except.ok ["a\nb", "c"]) "a.py" "a\nb\nc").getD i
          default).range = some r ∧
        r.start.line ≤ r.«end».line) ∧
     (∀ row : indexing.Row, row.start_line ≤ row.end_line →
       ∃ r, (indexing.rowToChunk row).range = some r ∧ r.start.line ≤ r.«end».line)) :=
  ⟨rfl,
    range_order_amended (fun _ _ => Except.ok ["a\nb", "c"]) "a.py" "a\nb\nc" "python"
      ["a\nb", "c"] [2, 1] [0, 1] 3 rfl rfl (by decide) (by decide) (by decide) (by decide)⟩

/-- `isPre p l` is the existence of a decomposition `l = p ++ t`. -/
theorem isPre_iff (p l : List Char) : github.isPre p l = true ↔ ∃ t, l = p ++ t := by
  induction p generalizing l with
  | nil => simp [github.isPre]
  | cons a p' ih =>
    cases l with
    | nil => simp [github.isPre]
    | cons b l' =>
      simp only [github.isPre, Bool.and_eq_true, beq_iff_eq, ih, List.cons_append,
        List.cons.injEq]
      constructor
      · rintro ⟨rfl, t, rfl⟩
        exact ⟨t, rfl, rfl⟩
      · rintro ⟨t, rfl, rfl⟩
        exact ⟨rfl, t, rfl⟩

/-- `isSub p l` is the existence of a decomposition `l = s ++ p ++ t`
(Python's substring containment). -/
theorem isSub_iff (p l : List Char) : github.isSub p l = true ↔ ∃ s t, l = s ++ p ++ t := by
  induction l with
  | nil =>
    simp only [github.isSub, isPre_iff]
    constructor
    · rintro ⟨t, ht⟩
      exact ⟨[], t, by simpa using ht⟩
    · rintro ⟨s, t, hst⟩
      rcases List.append_eq_nil.mp ((List.append_assoc s p t) ▸ hst).symm with ⟨rfl, h2⟩
      rcases List.append_eq_nil.mp h2 with ⟨rfl, rfl⟩
      exact ⟨[], rfl⟩
  | cons c l' ih =>
    simp only [github.isSub, Bool.or_eq_true, isPre_iff, ih]
    constructor
    · rintro (⟨t, ht⟩ | ⟨s, t, hst⟩)
      · exact ⟨[], t, by simpa using ht⟩
      · exact ⟨c :: s, t, by simp [hst]⟩
    · rintro ⟨s, t, hst⟩
      cases s with
      | nil => exact Or.inl ⟨t, by simpa using hst⟩
      | cons d s' =>
        simp only [List.cons_append, List.cons.injEq] at hst
        exact Or.inr ⟨s', t, hst.2⟩

/-- `replaceAllAux` on the empty list is the empty list, whatever the fuel. -/
theorem rAux_nil (pat rep : List Char) (f : Nat) :
    github.replaceAllAux pat rep f [] = [] := by
  cases f <;> rfl

/-- Fuel irrelevance: any fuel at least the list length gives the same result. -/
theorem rAux_fuel (pat rep : List Char) (f₁ : Nat) :
    ∀ (f₂ : Nat) (l : List Char), l.length ≤ f₁ → l.length ≤ f₂ →
      github.replaceAllAux pat rep f₁ l = github.replaceAllAux pat rep f₂ l := by
  induction f₁ with
  | zero =>
    intro f₂ l h₁ h₂
    have : l = [] := by
      cases l with
      | nil => rfl
      | cons c cs => simp at h₁
    subst this
    rw [rAux_nil, rAux_nil]
  | succ f ih =>
    intro f₂ l h₁ h₂
    cases l with
    | nil => rw [rAux_nil, rAux_nil]
    | cons c cs =>
      cases f₂ with
      | zero => simp at h₂
      | succ f₂' =>
        simp only [github.replaceAllAux]
        split
        · next hcond =>
          have hplen : 1 ≤ pat.length := by
            cases hp : pat with
            | nil => exact absurd hp hcond.1
            | cons a as => simp
          have hcs₁ : cs.length + 1 ≤ f + 1 := by simpa using h₁
          have hcs₂ : cs.length + 1 ≤ f₂' + 1 := by simpa using h₂
          congr 1
          exact ih f₂' _ (by simp [List.length_drop]; omega)
            (by simp [List.length_drop]; omega)
        · congr 1
          exact ih f₂' cs (by simpa using h₁) (by simpa using h₂)

/-- A replacement at the very start: `replaceAll (pat ++ rest)` replaces the
head occurrence and continues after it. -/
theorem replaceAll_head_match (pat rep rest : List Char) (hp : pat ≠ []) :
    github.replaceAll (pat ++ rest) pat rep = rep ++ github.replaceAll rest pat rep := by
  obtain ⟨p0, pat', rfl⟩ : ∃ p0 pat', pat = p0 :: pat' := by
    cases pat with
    | nil => exact absurd rfl hp
    | cons a as => exact ⟨a, as, rfl⟩
  unfold github.replaceAll
  have hl : (p0 :: pat') ++ rest = p0 :: (pat' ++ rest) := by simp
  rw [hl]
  have hlen : (p0 :: (pat' ++ rest)).length = (pat' ++ rest).length + 1 := by simp
  rw [hlen]
  simp only [github.replaceAllAux]
  rw [if_pos ⟨hp, (isPre_iff (p0 :: pat') (p0 :: (pat' ++ rest))).mpr ⟨rest, by simp⟩⟩]
  congr 1
  have hdrop : (p0 :: (pat' ++ rest)).drop (p0 :: pat').length = rest := by
    simp [List.drop_left]
  rw [hdrop]
  exact rAux_fuel (p0 :: pat') rep _ rest.length rest (by simp) le_rfl

/-- If `pat` occurs nowhere in `l`, `replaceAllAux` leaves `l` unchanged. -/
theorem rAux_no_occurrence (pat rep : List Char) (f : Nat) (l : List Char)
    (hf : l.length ≤ f) (h : github.isSub pat l = false) :
    github.replaceAllAux pat rep f l = l := by
  induction l generalizing f with
  | nil => exact rAux_nil pat rep f
  | cons c cs ih =>
    cases f with
    | zero => simp at hf
    | succ f' =>
      have hor := h
      unfold github.isSub at hor
      rw [Bool.or_eq_false_iff] at hor
      simp only [github.replaceAllAux]
      rw [if_neg (fun hcond => by rw [hor.1] at hcond; exact absurd hcond.2 (by simp))]
      congr 1
      exact ih f' (by simpa using hf) hor.2

/-- If `pat` occurs nowhere in `l`, `replaceAll` leaves `l` unchanged. -/
theorem replaceAll_no_occurrence (l pat rep : List Char) (h : github.isSub pat l = false) :
    github.replaceAll l pat rep = l :=
  rAux_no_occurrence pat rep l.length l le_rfl h

/-- Scanning a region that cannot start a match (its characters all differ from
the head of `pat`) copies the region and continues behind it. -/
theorem rAux_skip (hd : Char) (tl rep : List Char) (x rest : List Char) (hx : hd ∉ x)
    (f : Nat) (hf : (x ++ rest).length ≤ f) :
    github.replaceAllAux (hd :: tl) rep f (x ++ rest) =
      x ++ github.replaceAllAux (hd :: tl) rep rest.length rest := by
  induction x generalizing f with
  | nil => simpa using rAux_fuel (hd :: tl) rep f rest.length rest (by simpa using hf) le_rfl
  | cons c x' ih =>
    cases f with
    | zero => simp at hf
    | succ f' =>
      have hc : hd ≠ c := fun hEq => hx (hEq ▸ List.mem_cons_self c x')
      have h1 : github.isPre (hd :: tl) (c :: (x' ++ rest)) = false := by
        unfold github.isPre
        simp [hc]
      rw [List.cons_append]
      simp only [github.replaceAllAux]
      rw [if_neg (fun hcond => by rw [h1] at hcond; exact absurd hcond.2 (by simp))]
      rw [List.cons_append]
      congr 1
      exact ih (fun hmem => hx (List.mem_cons_of_mem c hmem)) f' (by simpa using hf)

/-- `"**/"` occurs nowhere in `x ++ "/**"` when `x` is star-free. -/
theorem no_starstar_slash (x : List Char) (hx : '*' ∉ x) :
    github.isSub ['*', '*', '/'] (x ++ ['/', '*', '*']) = false := by
  induction x with
  | nil => decide
  | cons c x' ih =>
    have hc : c ≠ '*' := fun hEq => hx (hEq ▸ List.mem_cons_self c x')
    have hpre : github.isPre ['*', '*', '/'] (c :: (x' ++ ['/', '*', '*'])) = false := by
      unfold github.isPre
      simp
      intro hEq
      exact absurd hEq.symm hc
    rw [List.cons_append]
    unfold github.isSub
    rw [hpre, ih (fun hmem => hx (List.mem_cons_of_mem c hmem))]
    rfl

/-- Reducing a glob pattern `**/X/**` (for a nonempty, `/`- and `*`-free `X`)
with the two `replace` calls yields exactly `X`. -/
theorem pattern_core_glob (x : List Char) (hs : '/' ∉ x) (ha : '*' ∉ x) :
    github.pattern_core (['*', '*', '/'] ++ x ++ ['/', '*', '*']) = x := by
  unfold github.pattern_core
  rw [show (['*', '*', '/'] ++ x ++ ['/', '*', '*']) =
      ['*', '*', '/'] ++ (x ++ ['/', '*', '*']) by simp]
  rw [replaceAll_head_match _ _ _ (by decide)]
  rw [replaceAll_no_occurrence _ _ _ (no_starstar_slash x ha)]
  rw [List.nil_append]
  unfold github.replaceAll
  rw [rAux_skip '/' ['*', '*'] [] x ['/', '*', '*'] hs _ le_rfl]
  have : github.replaceAllAux ['/', '*', '*'] [] ([] ++ ['/', '*', '*']).length
      ([] ++ ['/', '*', '*']) = [] := by decide
  simpa using this

/-- `segments` never returns the empty list. -/
theorem segments_ne_nil (l : List Char) : github.segments l ≠ [] := by
  induction l with
  | nil => simp [github.segments]
  | cons c rest ih =>
    unfold github.segments
    split
    · simp
    · split
      · simp
      · simp

/-- Unfold lemma: a leading slash opens a fresh empty segment. -/
theorem segments_cons_slash (l : List Char) :
    github.segments ('/' :: l) = [] :: github.segments l := by
  conv_lhs => unfold github.segments
  rw [if_pos rfl]

/-- Unfold lemma: a non-slash character extends the first segment. -/
theorem segments_cons_ne (c : Char) (l : List Char) (h : List Char) (tl : List (List Char))
    (hc : c ≠ '/') (hseg : github.segments l = h :: tl) :
    github.segments (c :: l) = (c :: h) :: tl := by
  conv_lhs => unfold github.segments
  rw [if_neg hc, hseg]

/-- Splitting distributes over an explicit separator:
`segments (w ++ '/' :: r) = segments w ++ segments r`. -/
theorem segments_append_slash (w r : List Char) :
    github.segments (w ++ '/' :: r) = github.segments w ++ github.segments r := by
  induction w with
  | nil => simp [segments_cons_slash, github.segments]
  | cons c w' ih =>
    by_cases hc : c = '/'
    · subst hc
      rw [List.cons_append, segments_cons_slash, segments_cons_slash, ih]
      rfl
    · cases hw : github.segments w' with
      | nil => exact absurd hw (segments_ne_nil w')
      | cons h tl =>
        have h1 : github.segments (w' ++ '/' :: r) = h :: (tl ++ github.segments r) := by
          rw [ih, hw]
          rfl
        rw [List.cons_append, segments_cons_ne c _ h (tl ++ github.segments r) hc h1,
          segments_cons_ne c w' h tl hc hw]
        rfl

/-- A slash-free list is its own single segment. -/
theorem segments_no_slash (x : List Char) (hx : '/' ∉ x) : github.segments x = [x] := by
  induction x with
  | nil => rfl
  | cons c x' ih =>
    have hc : c ≠ '/' := fun hEq => hx (hEq ▸ List.mem_cons_self c x')
    exact segments_cons_ne c x' x' [] hc (ih fun hmem => hx (List.mem_cons_of_mem c hmem))

/-- Head decomposition: the first segment is an initial run of the list,
followed by nothing or by a slash-started remainder. -/
theorem seg_head_decomp (p : List Char) (h : List Char) (tl : List (List Char))
    (hseg : github.segments p = h :: tl) :
    ∃ v, p = h ++ v ∧ (v = [] ∨ ∃ v', v = '/' :: v') := by
  induction p generalizing h tl with
  | nil =>
    have hthis : ([[]] : List (List Char)) = h :: tl := hseg
    obtain ⟨rfl, rfl⟩ : h = [] ∧ tl = [] :=
      ⟨(List.cons_eq_cons.mp hthis).1.symm, (List.cons_eq_cons.mp hthis).2.symm⟩
    exact ⟨[], rfl, Or.inl rfl⟩
  | cons c p' ih =>
    by_cases hc : c = '/'
    · subst hc
      rw [segments_cons_slash] at hseg
      obtain ⟨rfl, rfl⟩ : h = [] ∧ tl = github.segments p' :=
        ⟨(List.cons_eq_cons.mp hseg).1.symm, (List.cons_eq_cons.mp hseg).2.symm⟩
      exact ⟨'/' :: p', rfl, Or.inr ⟨p', rfl⟩⟩
    · cases hp' : github.segments p' with
      | nil => exact absurd hp' (segments_ne_nil p')
      | cons h' tl' =>
        rw [segments_cons_ne c p' h' tl' hc hp'] at hseg
        obtain ⟨rfl, rfl⟩ : h = c :: h' ∧ tl = tl' :=
          ⟨(List.cons_eq_cons.mp hseg).1.symm, (List.cons_eq_cons.mp hseg).2.symm⟩
        obtain ⟨v, hv, hcond⟩ := ih _ _ hp'
        exact ⟨v, by rw [List.cons_append, ← hv], hcond⟩

/-- Tail decomposition: a segment listed after the first one is preceded in the
path by a slash, and followed by nothing or by a slash-started remainder. -/
theorem seg_tail_decomp (x : List Char) :
    ∀ (p : List Char) (h : List Char) (tl : List (List Char)),
      github.segments p = h :: tl → x ∈ tl →
      ∃ u v, p = u ++ '/' :: x ++ v ∧ (v = [] ∨ ∃ v', v = '/' :: v') := by
  intro p
  induction p with
  | nil =>
    intro h tl hseg hmem
    have hthis : ([[]] : List (List Char)) = h :: tl := hseg
    obtain ⟨rfl, rfl⟩ : h = [] ∧ tl = [] :=
      ⟨(List.cons_eq_cons.mp hthis).1.symm, (List.cons_eq_cons.mp hthis).2.symm⟩
    simp at hmem
  | cons c p' ih =>
    intro h tl hseg hmem
    by_cases hc : c = '/'
    · subst hc
      rw [segments_cons_slash] at hseg
      obtain ⟨rfl, rfl⟩ : h = [] ∧ tl = github.segments p' :=
        ⟨(List.cons_eq_cons.mp hseg).1.symm, (List.cons_eq_cons.mp hseg).2.symm⟩
      cases hp' : github.segments p' with
      | nil => exact absurd hp' (segments_ne_nil p')
      | cons h' tl' =>
        rw [hp'] at hmem
        rcases List.mem_cons.mp hmem with rfl | hmem'
        · obtain ⟨v, hv, hcond⟩ := seg_head_decomp p' x tl' hp'
          exact ⟨[], v, by simp [hv], hcond⟩
        · obtain ⟨u, v, hv, hcond⟩ := ih _ _ hp' hmem'
          exact ⟨'/' :: u, v, by simp [hv], hcond⟩
    · cases hp' : github.segments p' with
      | nil => exact absurd hp' (segments_ne_nil p')
      | cons h' tl' =>
        rw [segments_cons_ne c p' h' tl' hc hp'] at hseg
        obtain ⟨rfl, rfl⟩ : h = c :: h' ∧ tl = tl' :=
          ⟨(List.cons_eq_cons.mp hseg).1.symm, (List.cons_eq_cons.mp hseg).2.symm⟩
        obtain ⟨u, v, hv, hcond⟩ := ih _ _ hp' hmem
        exact ⟨c :: u, v, by simp [hv], hcond⟩

/-- If the slash-free `x` occurs at the very start of `p` and is followed there
by a slash (possibly the virtual trailing one), it is a segment of `p`. -/
theorem seg_of_eq_start (x p t : List Char) (hx : '/' ∉ x)
    (h : p ++ ['/'] = x ++ '/' :: t) : x ∈ github.segments p := by
  have hlen : p.length + 1 = x.length + 1 + t.length := by
    have hl := congrArg List.length h
    simp at hl
    omega
  have hxp : x.length ≤ p.length := by omega
  have htake : p.take x.length = x := by
    have h1 : (p ++ ['/']).take x.length = (x ++ '/' :: t).take x.length := by rw [h]
    rw [List.take_append_of_le_length hxp] at h1
    rw [show (x ++ '/' :: t).take x.length = x from List.take_left x ('/' :: t)] at h1
    exact h1
  have hp : p = x ++ p.drop x.length := by
    conv_lhs => rw [← List.take_append_drop x.length p, htake]
  have h2 : p.drop x.length ++ ['/'] = '/' :: t := by
    apply List.append_cancel_left
    calc x ++ (p.drop x.length ++ ['/']) = (x ++ p.drop x.length) ++ ['/'] := by simp
      _ = p ++ ['/'] := by rw [← hp]
      _ = x ++ '/' :: t := h
  cases hd : p.drop x.length with
  | nil =>
    rw [hd] at hp
    rw [show p = x from by simpa using hp, segments_no_slash x hx]
    simp
  | cons e d' =>
    rw [hd] at h2 hp
    obtain ⟨rfl, -⟩ : e = '/' ∧ d' ++ ['/'] = t := List.cons_eq_cons.mp h2
    rw [show p = x ++ '/' :: d' from by simpa using hp]
    rw [segments_append_slash, segments_no_slash x hx]
    simp

/-- If the slash-free `x` occurs in `p` preceded by a slash boundary (or the
start) and followed by a slash (possibly the virtual trailing one), it is a
segment of `p`. -/
theorem seg_of_eq_mid (x p u t : List Char) (hx : '/' ∉ x)
    (hu : u = [] ∨ ∃ w, u = w ++ ['/'])
    (h : p ++ ['/'] = u ++ x ++ '/' :: t) : x ∈ github.segments p := by
  rcases hu with rfl | ⟨w, rfl⟩
  · exact seg_of_eq_start x p t hx (by simpa using h)
  · have h' : p ++ ['/'] = w ++ '/' :: (x ++ '/' :: t) := by
      rw [h]
      simp
    have hlen : p.length + 1 = w.length + 1 + (x.length + 1 + t.length) := by
      have hl := congrArg List.length h'
      simp at hl
      omega
    have hwp : w.length ≤ p.length := by omega
    have htake : p.take w.length = w := by
      have h1 : (p ++ ['/']).take w.length = (w ++ '/' :: (x ++ '/' :: t)).take w.length := by
        rw [h']
      rw [List.take_append_of_le_length hwp] at h1
      rw [show (w ++ '/' :: (x ++ '/' :: t)).take w.length = w from
        List.take_left w ('/' :: (x ++ '/' :: t))] at h1
      exact h1
    have hp : p = w ++ p.drop w.length := by
      conv_lhs => rw [← List.take_append_drop w.length p, htake]
    have h2 : p.drop w.length ++ ['/'] = '/' :: (x ++ '/' :: t) := by
      apply List.append_cancel_left
      calc w ++ (p.drop w.length ++ ['/']) = (w ++ p.drop w.length) ++ ['/'] := by simp
        _ = p ++ ['/'] := by rw [← hp]
        _ = w ++ '/' :: (x ++ '/' :: t) := h'
    cases hd : p.drop w.length with
    | nil =>
      rw [hd] at h2
      simp at h2
    | cons e d' =>
      rw [hd] at h2 hp
      obtain ⟨rfl, hd'⟩ : e = '/' ∧ d' ++ ['/'] = x ++ '/' :: t := List.cons_eq_cons.mp h2
      rw [show p = w ++ '/' :: d' from by simpa using hp]
      rw [segments_append_slash]
      exact List.mem_append_right _ (seg_of_eq_start x d' t hx hd')

/-- Forward direction: the code's slash-wrapped containment test implies `x` is
a path segment. -/
theorem should_exclude_imp_segment (x p : List Char) (hx : '/' ∉ x) (ha : '*' ∉ x)
    (h : github.should_exclude [['*', '*', '/'] ++ x ++ ['/', '*', '*']] p = true) :
    x ∈ github.segments p := by
  unfold github.should_exclude at h
  simp only [List.any_cons, List.any_nil, Bool.or_false] at h
  rw [pattern_core_glob x hx ha, isSub_iff] at h
  obtain ⟨s, t, hst⟩ := h
  cases s with
  | nil =>
    apply seg_of_eq_start x p t hx
    simp only [List.nil_append, List.cons_append] at hst
    have := List.cons_eq_cons.mp hst
    rw [this.2]
    simp
  | cons c s' =>
    simp only [List.cons_append] at hst
    obtain ⟨rfl, hst'⟩ : c = '/' ∧ p ++ ['/'] = s' ++ ('/' :: x ++ ['/']) ++ t := by
      have := List.cons_eq_cons.mp hst
      exact ⟨this.1.symm, this.2⟩
    apply seg_of_eq_mid x p (s' ++ ['/']) t hx (Or.inr ⟨s', rfl⟩)
    rw [hst']
    simp

/-- Backward direction: a path segment is caught by the slash-wrapped
containment test. -/
theorem segment_imp_should_exclude (x p : List Char) (hx : '/' ∉ x) (ha : '*' ∉ x)
    (hmem : x ∈ github.segments p) :
    github.should_exclude [['*', '*', '/'] ++ x ++ ['/', '*', '*']] p = true := by
  unfold github.should_exclude
  simp only [List.any_cons, List.any_nil, Bool.or_false]
  rw [pattern_core_glob x hx ha, isSub_iff]
  cases hseg : github.segments p with
  | nil => exact absurd hseg (segments_ne_nil p)
  | cons h tl =>
    rw [hseg] at hmem
    rcases List.mem_cons.mp hmem with rfl | hmem'
    · obtain ⟨v, hv, hcond⟩ := seg_head_decomp p x tl hseg
      rcases hcond with rfl | ⟨v', rfl⟩
      · exact ⟨[], [], by simp [hv]⟩
      · exact ⟨[], v' ++ ['/'], by simp [hv]⟩
    · obtain ⟨u, v, hv, hcond⟩ := seg_tail_decomp x p h tl hseg hmem'
      rcases hcond with rfl | ⟨v', rfl⟩
      · exact ⟨'/' :: u, [], by simp [hv]⟩
      · exact ⟨'/' :: u, v' ++ ['/'], by simp [hv]⟩

/-- **C8** (amended).  For every path and every exclude pattern of the form
`**/X/**` (`X` nonempty, slash- and star-free), the path is excluded exactly
when `X` is a complete `/`-separated segment of the path — including a final
component exactly equal to `X`, but *not* a filename that merely contains `X`
as a proper substring (see the counterexample: `node_modules.py` is kept). -/
theorem exclude_segment_characterisation (x p : List Char)
    (hslash : '/' ∉ x) (hstar : '*' ∉ x) (_hne : x ≠ []) :
    github.should_exclude [['*', '*', '/'] ++ x ++ ['/', '*', '*']] p = true ↔
      x ∈ github.segments p :=
  ⟨should_exclude_imp_segment x p hslash hstar, segment_imp_should_exclude x p hslash hstar⟩

/-- **C8** (counterexample).  The claim asserts the containment test *also*
excludes files whose name merely contains the excluded segment, such as a file
literally named `node_modules.py` under `**/node_modules/**` — it does not:
that path is not excluded, although `node_modules` occurs in its name. -/
theorem exclude_filename_substring_counterexample :
    github.should_exclude ["**/node_modules/**".toList] "node_modules.py".toList = false ∧
    github.isSub "node_modules".toList "node_modules.py".toList = true := by
  decide

/-- Witness for the amended C8 at concrete inputs. -/
theorem exclude_segment_characterisation_witness :
    ('/' ∉ "node_modules".toList ∧ '*' ∉ "node_modules".toList ∧
      "node_modules".toList ≠ []) ∧
    (github.should_exclude [['*', '*', '/'] ++ "node_modules".toList ++ ['/', '*', '*']]
        "src/node_modules/a.py".toList = true ↔
      "node_modules".toList ∈ github.segments "src/node_modules/a.py".toList) :=
  ⟨⟨by decide, by decide, by decide⟩,
    exclude_segment_characterisation "node_modules".toList "src/node_modules/a.py".toList
      (by decide) (by decide) (by decide)⟩
